import Mathlib

/-!
Shallow embedding of the consistent-hashing ring and cache-node routing core
of a distributed key-value cache (C++ sources: `consistent_hash.cpp`,
`cache_server.cpp` / `cache_server.h`).

Modelling decisions:
* `std::map<uint32_t, std::string> ring_` is embedded as a list of
  key-value pairs kept strictly sorted by key (`RingSorted`), matching the
  ordered-map semantics used by `lower_bound`.
* `std::unordered_map` (node registry, local cache) is embedded as an
  association list with overwrite-on-insert semantics; its iteration order
  is irrelevant to every claim considered here.
* The hash `MD5(s)` truncated to the first 4 big-endian bytes is abstracted
  as a parameter `h : String → Nat`: the spec (§4.1) states that bit-for-bit
  hash compatibility is not load-bearing, only stability of assignment.
* Exceptions (`std::runtime_error "No nodes available"`, `std::out_of_range`
  from `nodes_.at`) are embedded as `Except GetErr`.
* The gRPC client is an oracle record `RpcClient`; cache operations return,
  next to their result, the list of remote calls they issued, so that
  "exactly one remote call, no retry" is expressible.
-/

namespace DCache

/-- Node record: identifier, host, gRPC port, HTTP port (`cache_server.h`). -/
structure Node where
  id : String
  host : String
  grpc_port : Nat
  http_port : Nat
deriving DecidableEq, Repr

/-- Failure modes of `ConsistentHash::getNode`: the explicit
`std::runtime_error("No nodes available")` on an empty ring, and the
`std::out_of_range` that `nodes_.at(it->second)` would raise if the matched
ring entry named an unregistered node. -/
inductive GetErr where
  | noNodesAvailable
  | registryMiss (node_id : String)
deriving DecidableEq, Repr

/-- Association-list lookup (first entry with the given key). -/
def alLookup {κ ν : Type} [DecidableEq κ] (k : κ) : List (κ × ν) → Option ν
  | [] => none
  | e :: rest => if e.1 = k then some e.2 else alLookup k rest

/-- Association-list erase: drop every entry with the given key
(`std::map::erase(key)` / `std::unordered_map::erase`). -/
def alErase {κ ν : Type} [DecidableEq κ] (k : κ) (l : List (κ × ν)) : List (κ × ν) :=
  l.filter (fun e => decide (e.1 ≠ k))

/-- Association-list overwrite-insert (`m[k] = v`). -/
def alInsert {κ ν : Type} [DecidableEq κ] (k : κ) (v : ν) (l : List (κ × ν)) : List (κ × ν) :=
  (k, v) :: alErase k l

/-- The ring `std::map<uint32_t, std::string>`: hash position to node id. -/
abbrev RingMap := List (Nat × String)

/-- Ordered-map insert keeping the list strictly sorted by key, with
overwrite on an equal key (`ring_[hash_value] = node.id`). -/
def ringInsert (k : Nat) (v : String) : RingMap → RingMap
  | [] => [(k, v)]
  | e :: rest =>
    if k < e.1 then (k, v) :: e :: rest
    else if k = e.1 then (k, v) :: rest
    else e :: ringInsert k v rest

/-- First entry whose key is at least `hv` (`std::map::lower_bound`); `none`
plays the role of the `end()` iterator. -/
def lowerBound (hv : Nat) : RingMap → Option (Nat × String)
  | [] => none
  | e :: rest => if hv ≤ e.1 then some e else lowerBound hv rest

/-- State of `ConsistentHash`: virtual-node count, ring, node registry. -/
structure ConsistentHash where
  virtual_nodes : Nat
  ring : RingMap
  nodes : List (String × Node)
deriving DecidableEq, Repr

/-- Virtual-node label `node_id + "#" + std::to_string(index)`
(`ConsistentHash::getVirtualNodeKey`). -/
def getVirtualNodeKey (node_id : String) (index : Nat) : String :=
  node_id ++ "#" ++ toString index

/-- `ConsistentHash::ConsistentHash(virtual_nodes)`: empty ring and registry. -/
def initRing (virtual_nodes : Nat) : ConsistentHash :=
  { virtual_nodes := virtual_nodes, ring := [], nodes := [] }

/-- `ConsistentHash::addNode`: record the node in the registry, then insert
one ring entry per virtual-node index `i < virtual_nodes_`. -/
def ConsistentHash.addNode (h : String → Nat) (st : ConsistentHash) (node : Node) :
    ConsistentHash :=
  { st with
    nodes := alInsert node.id node st.nodes
    ring := (List.range st.virtual_nodes).foldl
      (fun r i => ringInsert (h (getVirtualNodeKey node.id i)) node.id r) st.ring }

/-- `ConsistentHash::hasNode`: registry membership test. -/
def ConsistentHash.hasNode (st : ConsistentHash) (node_id : String) : Bool :=
  (alLookup node_id st.nodes).isSome

/-- `ConsistentHash::removeNode`: no-op when the id is unregistered;
otherwise erase the ring entry of every recomputed virtual-node hash, then
erase the registry entry. -/
def ConsistentHash.removeNode (h : String → Nat) (st : ConsistentHash) (node_id : String) :
    ConsistentHash :=
  if (alLookup node_id st.nodes).isSome then
    { st with
      ring := (List.range st.virtual_nodes).foldl
        (fun r i => alErase (h (getVirtualNodeKey node_id i)) r) st.ring
      nodes := alErase node_id st.nodes }
  else st

/-- `ConsistentHash::getNode`: fail on an empty ring; otherwise take the
first ring entry with key at least `hash(key)`, wrapping to the first entry
of the ring when none exists, and look its node id up in the registry. -/
def ConsistentHash.getNode (h : String → Nat) (st : ConsistentHash) (key : String) :
    Except GetErr Node :=
  if st.ring.isEmpty then .error .noNodesAvailable
  else
    let hv := h key
    let e := (lowerBound hv st.ring).getD (st.ring.headD (0, ""))
    match alLookup e.2 st.nodes with
    | some n => .ok n
    | none => .error (.registryMiss e.2)

/-- `ConsistentHash::getAllNodes`: snapshot of the registry values. -/
def ConsistentHash.getAllNodes (st : ConsistentHash) : List Node :=
  st.nodes.map Prod.snd

/-- A single membership operation on the ring. -/
inductive RingOp where
  | add (node : Node)
  | remove (node_id : String)
deriving Repr

/-- Apply one membership operation. -/
def applyOp (h : String → Nat) (st : ConsistentHash) : RingOp → ConsistentHash
  | .add node => st.addNode h node
  | .remove node_id => st.removeNode h node_id

/-- Apply a sequence of membership operations in order. -/
def applyOps (h : String → Nat) (ops : List RingOp) (st : ConsistentHash) : ConsistentHash :=
  ops.foldl (applyOp h) st

/-- Node identifier an operation is about. -/
def RingOp.opId : RingOp → String
  | .add node => node.id
  | .remove node_id => node_id

/-- Identifiers mentioned by a sequence of membership operations. -/
def opIds (ops : List RingOp) : List String := ops.map RingOp.opId

/-- Ring well-formedness: keys strictly increase along the list, which is
exactly the ordered-uniqueness guarantee of `std::map`. -/
def RingSorted (r : RingMap) : Prop :=
  List.Pairwise (fun a b : Nat × String => a.1 < b.1) r

instance (r : RingMap) : Decidable (RingSorted r) := by
  unfold RingSorted; infer_instance

/-- Hash injectivity on the virtual-node labels of a set of identifiers:
no two distinct (id, index) pairs hash to the same ring position. This is
the "modulo accidental hash collisions" proviso of the spec, stated as a
hypothesis since the MD5-truncation hash is abstracted as a parameter. -/
def LabelsInj (h : String → Nat) (vn : Nat) (ids : List String) : Prop :=
  ∀ id1 ∈ ids, ∀ id2 ∈ ids, ∀ i1 < vn, ∀ i2 < vn,
    h (getVirtualNodeKey id1 i1) = h (getVirtualNodeKey id2 i2) → id1 = id2 ∧ i1 = i2

instance (h : String → Nat) (vn : Nat) (ids : List String) :
    Decidable (LabelsInj h vn ids) := by
  unfold LabelsInj; infer_instance

/-- Registry values carry the identifier they are filed under
(`nodes_[node.id] = node`). -/
def RegIdsOk (st : ConsistentHash) : Prop :=
  ∀ id nd, alLookup id st.nodes = some nd → nd.id = id

/-- Every ring entry points at a registered node and sits at the hash of one
of that node's virtual labels. -/
def RingBacked (h : String → Nat) (st : ConsistentHash) : Prop :=
  ∀ k id, alLookup k st.ring = some id →
    (alLookup id st.nodes).isSome = true ∧
      ∃ i < st.virtual_nodes, h (getVirtualNodeKey id i) = k

/-- Weak reachability invariant: sortedness, registry-id coherence, and
ring entries backed by the registry. -/
def InvW (h : String → Nat) (st : ConsistentHash) : Prop :=
  RingSorted st.ring ∧ RegIdsOk st ∧ RingBacked h st

/-- Exact characterisation of the ring as a function: position `k` holds
`id` precisely when `id` is registered and `k` is the hash of one of its
virtual-node labels. Holds on collision-free reachable states. -/
def RingChar (h : String → Nat) (vn : Nat) (st : ConsistentHash) : Prop :=
  ∀ k id, alLookup k st.ring = some id ↔
    ((alLookup id st.nodes).isSome = true ∧ ∃ i < vn, h (getVirtualNodeKey id i) = k)

/-- Strong reachability invariant, relative to a superset `ids` of the
identifiers that membership operations have mentioned. -/
def InvS (h : String → Nat) (vn : Nat) (ids : List String) (st : ConsistentHash) : Prop :=
  st.virtual_nodes = vn ∧ RingSorted st.ring ∧ RegIdsOk st ∧
    (∀ id, (alLookup id st.nodes).isSome = true → id ∈ ids) ∧ RingChar h vn st

/-- One remote RPC issued through the gRPC client. -/
inductive RemoteCall where
  | callGet (target : Node) (key : String)
  | callSet (target : Node) (key value : String)
  | callDel (target : Node) (key : String)
deriving DecidableEq, Repr

/-- Oracle for the gRPC client's observable results (`GrpcClient`): a remote
get yields (found, value), a remote set or delete yields success. -/
structure RpcClient where
  rpcGet : Node → String → Bool × String
  rpcSet : Node → String → String → Bool
  rpcDel : Node → String → Bool

/-- State of `CacheServer`: own identifier, hash ring, local store. -/
structure CacheServer where
  node_id : String
  hash_ring : ConsistentHash
  local_cache : List (String × String)
deriving DecidableEq, Repr

/-- `CacheServer::isLocalKey`: ask the ring for the owner and compare with
the own identifier; any exception from `getNode` is caught and the key is
treated as local (fail-open). -/
def CacheServer.isLocalKey (h : String → Nat) (sv : CacheServer) (key : String) : Bool :=
  match sv.hash_ring.getNode h key with
  | .ok target => target.id == sv.node_id
  | .error _ => true

/-- `CacheServer::getLocal`: mutex-guarded map lookup; on a miss the out
parameter keeps its caller-initialised empty value. -/
def CacheServer.getLocal (sv : CacheServer) (key : String) : Bool × String :=
  match alLookup key sv.local_cache with
  | some v => (true, v)
  | none => (false, "")

/-- `CacheServer::setLocal`: unconditional store write, always succeeds. -/
def CacheServer.setLocal (sv : CacheServer) (key value : String) : Bool × CacheServer :=
  (true, { sv with local_cache := alInsert key value sv.local_cache })

/-- `CacheServer::delLocal`: erase and report success iff the key existed. -/
def CacheServer.delLocal (sv : CacheServer) (key : String) : Bool × CacheServer :=
  match alLookup key sv.local_cache with
  | some _ => (true, { sv with local_cache := alErase key sv.local_cache })
  | none => (false, sv)

/-- `CacheServer::get`: route by ownership; locally a store read, otherwise
a single remote Get whose result is returned as-is. The second component
lists the remote calls issued. -/
def CacheServer.get (h : String → Nat) (rpc : RpcClient) (sv : CacheServer) (key : String) :
    Except GetErr ((Bool × String) × List RemoteCall) :=
  if sv.isLocalKey h key then .ok (sv.getLocal key, [])
  else
    match sv.hash_ring.getNode h key with
    | .ok target => .ok (rpc.rpcGet target key, [.callGet target key])
    | .error e => .error e

/-- `CacheServer::set`: route by ownership; locally a store write, otherwise
a single remote Set whose success is returned as-is. -/
def CacheServer.set (h : String → Nat) (rpc : RpcClient) (sv : CacheServer)
    (key value : String) : Except GetErr ((Bool × CacheServer) × List RemoteCall) :=
  if sv.isLocalKey h key then .ok (sv.setLocal key value, [])
  else
    match sv.hash_ring.getNode h key with
    | .ok target => .ok ((rpc.rpcSet target key value, sv), [.callSet target key value])
    | .error e => .error e

/-- `CacheServer::del`: route by ownership; locally a store erase, otherwise
a single remote Delete whose success is returned as-is. -/
def CacheServer.del (h : String → Nat) (rpc : RpcClient) (sv : CacheServer) (key : String) :
    Except GetErr ((Bool × CacheServer) × List RemoteCall) :=
  if sv.isLocalKey h key then .ok (sv.delLocal key, [])
  else
    match sv.hash_ring.getNode h key with
    | .ok target => .ok ((rpc.rpcDel target key, sv), [.callDel target key])
    | .error e => .error e

/-- Server-side gRPC `Get` handler: local store read only. -/
def CacheServer.handleGet (sv : CacheServer) (key : String) :
    (Bool × String) × List RemoteCall :=
  (sv.getLocal key, [])

/-- Server-side gRPC `Set` handler: local store write only. -/
def CacheServer.handleSet (sv : CacheServer) (key value : String) :
    (Bool × CacheServer) × List RemoteCall :=
  (sv.setLocal key value, [])

/-- Server-side gRPC `Delete` handler: local store erase only. -/
def CacheServer.handleDelete (sv : CacheServer) (key : String) :
    (Bool × CacheServer) × List RemoteCall :=
  (sv.delLocal key, [])

/-- Server-side gRPC `Health` handler: static healthy plus own identifier. -/
def CacheServer.handleHealth (sv : CacheServer) : Bool × String :=
  (true, sv.node_id)

/-- Replace a server's hash ring, leaving identifier and store untouched;
used to state that the gRPC handlers never consult the ring. -/
def setRing (sv : CacheServer) (r : ConsistentHash) : CacheServer :=
  { sv with hash_ring := r }

/-! ### Concrete fixtures used to instantiate the theorems -/

/-- Concrete stand-in hash (sum of character codes), used to evaluate the
parametric development on explicit states. -/
def demoHash (s : String) : Nat :=
  s.data.foldl (fun a c => a + c.toNat) 0

/-- Concrete node "A". -/
def nodeA : Node := { id := "A", host := "hostA", grpc_port := 50051, http_port := 9527 }

/-- Concrete node "B". -/
def nodeB : Node := { id := "B", host := "hostB", grpc_port := 50052, http_port := 9528 }

/-- Concrete ring holding only node "A" (one virtual node per physical node). -/
def demoStateA : ConsistentHash :=
  applyOps demoHash [RingOp.add nodeA] (initRing 1)

/-- Concrete ring holding nodes "A" and "B" (one virtual node each). -/
def demoState : ConsistentHash :=
  applyOps demoHash [RingOp.add nodeA, RingOp.add nodeB] (initRing 1)

/-- Concrete RPC oracle with fixed responses. -/
def demoRpc : RpcClient :=
  { rpcGet := fun _ _ => (true, "remoteVal")
    rpcSet := fun _ _ _ => true
    rpcDel := fun _ _ => true }

/-- Concrete cache server with identifier "A" over `demoState`. -/
def demoServer : CacheServer :=
  { node_id := "A", hash_ring := demoState, local_cache := [("u", "1")] }

/-- Concrete cache server whose ring is empty. -/
def demoServerEmpty : CacheServer :=
  { node_id := "A", hash_ring := initRing 1, local_cache := [("u", "1")] }

/-- `demoServer` after deleting key "u". -/
def demoServerDel : CacheServer :=
  { node_id := "A", hash_ring := demoState, local_cache := [] }

/-- `demoServer` after setting key "x" to "42". -/
def demoServerSet : CacheServer :=
  { node_id := "A", hash_ring := demoState, local_cache := [("x", "42"), ("u", "1")] }


/-! ### Association-list lemmas -/

theorem alLookup_cons_self {κ ν : Type} [DecidableEq κ] {k : κ} {e : κ × ν}
    (rest : List (κ × ν)) (he : e.1 = k) : alLookup k (e :: rest) = some e.2 := by
  simp [alLookup, he]

theorem alLookup_cons_ne {κ ν : Type} [DecidableEq κ] {k : κ} {e : κ × ν}
    (rest : List (κ × ν)) (he : e.1 ≠ k) : alLookup k (e :: rest) = alLookup k rest := by
  simp [alLookup, he]

theorem alErase_cons_self {κ ν : Type} [DecidableEq κ] {k : κ} {e : κ × ν}
    (rest : List (κ × ν)) (he : e.1 = k) : alErase k (e :: rest) = alErase k rest := by
  simp [alErase, List.filter_cons, he]

theorem alErase_cons_ne {κ ν : Type} [DecidableEq κ] {k : κ} {e : κ × ν}
    (rest : List (κ × ν)) (he : e.1 ≠ k) : alErase k (e :: rest) = e :: alErase k rest := by
  simp [alErase, List.filter_cons, he]

theorem alLookup_alErase_self {κ ν : Type} [DecidableEq κ] (k : κ) (l : List (κ × ν)) :
    alLookup k (alErase k l) = none := by
  induction l with
  | nil => rfl
  | cons e rest ih =>
    by_cases he : e.1 = k
    · rw [alErase_cons_self rest he]; exact ih
    · rw [alErase_cons_ne rest he, alLookup_cons_ne _ he]; exact ih

theorem alLookup_alErase_ne {κ ν : Type} [DecidableEq κ] {k k' : κ} (l : List (κ × ν))
    (hne : k' ≠ k) : alLookup k' (alErase k l) = alLookup k' l := by
  induction l with
  | nil => rfl
  | cons e rest ih =>
    by_cases he : e.1 = k
    · have he' : e.1 ≠ k' := fun hc => hne ((hc.symm.trans he))
      rw [alErase_cons_self rest he, alLookup_cons_ne rest he']; exact ih
    · rw [alErase_cons_ne rest he]
      by_cases he' : e.1 = k'
      · rw [alLookup_cons_self _ he', alLookup_cons_self rest he']
      · rw [alLookup_cons_ne _ he', alLookup_cons_ne rest he']; exact ih

theorem alErase_of_lookup_none {κ ν : Type} [DecidableEq κ] {k : κ} {l : List (κ × ν)}
    (hnone : alLookup k l = none) : alErase k l = l := by
  induction l with
  | nil => rfl
  | cons e rest ih =>
    by_cases he : e.1 = k
    · rw [alLookup_cons_self rest he] at hnone; exact absurd hnone (by simp)
    · rw [alLookup_cons_ne rest he] at hnone
      rw [alErase_cons_ne rest he, ih hnone]

theorem alLookup_alInsert_self {κ ν : Type} [DecidableEq κ] (k : κ) (v : ν)
    (l : List (κ × ν)) : alLookup k (alInsert k v l) = some v := by
  simp [alInsert, alLookup]

theorem alLookup_alInsert_ne {κ ν : Type} [DecidableEq κ] {k k' : κ} (v : ν)
    (l : List (κ × ν)) (hne : k' ≠ k) : alLookup k' (alInsert k v l) = alLookup k' l := by
  rw [alInsert, alLookup_cons_ne _ (fun hc : k = k' => hne hc.symm)]
  exact alLookup_alErase_ne l hne

/-! ### Sorted-ring lemmas -/

theorem alLookup_ringInsert_self (k : Nat) (v : String) (r : RingMap) :
    alLookup k (ringInsert k v r) = some v := by
  induction r with
  | nil => simp [ringInsert, alLookup]
  | cons e rest ih =>
    by_cases h1 : k < e.1
    · rw [ringInsert, if_pos h1]; simp [alLookup]
    · by_cases h2 : k = e.1
      · rw [ringInsert, if_neg h1, if_pos h2]; simp [alLookup]
      · have : e.1 ≠ k := fun hc => h2 hc.symm
        rw [ringInsert, if_neg h1, if_neg h2, alLookup_cons_ne _ this]; exact ih

theorem alLookup_ringInsert_ne {k k' : Nat} (v : String) (r : RingMap) (hne : k' ≠ k) :
    alLookup k' (ringInsert k v r) = alLookup k' r := by
  induction r with
  | nil => rw [ringInsert, alLookup_cons_ne _ (fun hc : k = k' => hne hc.symm)]
  | cons e rest ih =>
    by_cases h1 : k < e.1
    · rw [ringInsert, if_pos h1, alLookup_cons_ne _ (fun hc : k = k' => hne hc.symm)]
    · by_cases h2 : k = e.1
      · rw [ringInsert, if_neg h1, if_pos h2]
        have he' : e.1 ≠ k' := fun hc => hne (h2.trans hc).symm
        rw [alLookup_cons_ne _ (fun hc : k = k' => hne hc.symm),
          alLookup_cons_ne rest he']
      · rw [ringInsert, if_neg h1, if_neg h2]
        by_cases he' : e.1 = k'
        · rw [alLookup_cons_self _ he', alLookup_cons_self rest he']
        · rw [alLookup_cons_ne _ he', alLookup_cons_ne rest he']; exact ih

theorem mem_ringInsert {e : Nat × String} {k : Nat} {v : String} {r : RingMap}
    (hmem : e ∈ ringInsert k v r) : e = (k, v) ∨ e ∈ r := by
  induction r with
  | nil => simpa [ringInsert] using hmem
  | cons a rest ih =>
    by_cases h1 : k < a.1
    · simpa [ringInsert, h1] using hmem
    · by_cases h2 : k = a.1
      · rcases (by simpa [ringInsert, h1, h2] using hmem : e = (k, v) ∨ e ∈ rest) with h | h
        · exact Or.inl h
        · exact Or.inr (List.mem_cons_of_mem a h)
      · rcases (by simpa [ringInsert, h1, h2] using hmem : e = a ∨ e ∈ ringInsert k v rest)
          with h | h
        · exact Or.inr (h ▸ List.mem_cons_self a rest)
        · rcases ih h with h' | h'
          · exact Or.inl h'
          · exact Or.inr (List.mem_cons_of_mem a h')

theorem RingSorted.insert {r : RingMap} (hs : RingSorted r) (k : Nat) (v : String) :
    RingSorted (ringInsert k v r) := by
  induction r with
  | nil => simp [ringInsert, RingSorted]
  | cons a rest ih =>
    rw [RingSorted, List.pairwise_cons] at hs
    obtain ⟨ha, hrest⟩ := hs
    by_cases h1 : k < a.1
    · rw [RingSorted, ringInsert, if_pos h1, List.pairwise_cons]
      refine ⟨?_, List.pairwise_cons.mpr ⟨ha, hrest⟩⟩
      intro b hb
      rcases List.mem_cons.mp hb with h | h
      · rw [h]; exact h1
      · exact lt_trans h1 (ha b h)
    · by_cases h2 : k = a.1
      · rw [RingSorted, ringInsert, if_neg h1, if_pos h2, List.pairwise_cons]
        exact ⟨fun b hb => h2 ▸ ha b hb, hrest⟩
      · have hak : a.1 < k := lt_of_le_of_ne (Nat.le_of_not_lt h1) (fun hc => h2 hc.symm)
        rw [RingSorted, ringInsert, if_neg h1, if_neg h2, List.pairwise_cons]
        refine ⟨?_, ih hrest⟩
        intro b hb
        rcases mem_ringInsert hb with h | h
        · rw [h]; exact hak
        · exact ha b h

theorem RingSorted.erase {r : RingMap} (hs : RingSorted r) (k : Nat) :
    RingSorted (alErase k r) :=
  List.Pairwise.sublist (List.filter_sublist r) hs

theorem lookup_of_mem : ∀ {r : RingMap}, RingSorted r → ∀ {k : Nat} {v : String},
    (k, v) ∈ r → alLookup k r = some v := by
  intro r
  induction r with
  | nil => intro _ k v hmem; simp at hmem
  | cons a rest ih =>
    intro hs k v hmem
    rw [RingSorted, List.pairwise_cons] at hs
    obtain ⟨ha, hrest⟩ := hs
    rcases List.mem_cons.mp hmem with h | h
    · rw [← h]; exact alLookup_cons_self rest rfl
    · have hlt : a.1 < k := ha (k, v) h
      rw [alLookup_cons_ne rest (Nat.ne_of_lt hlt)]
      exact ih hrest h

theorem mem_of_lookup {κ ν : Type} [DecidableEq κ] : ∀ {l : List (κ × ν)} {k : κ} {v : ν},
    alLookup k l = some v → (k, v) ∈ l := by
  intro l
  induction l with
  | nil => intro k v hl; simp [alLookup] at hl
  | cons e rest ih =>
    intro k v hl
    by_cases he : e.1 = k
    · rw [alLookup_cons_self rest he] at hl
      have : e = (k, v) := Prod.ext he (Option.some.inj hl)
      exact this ▸ List.mem_cons_self e rest
    · rw [alLookup_cons_ne rest he] at hl
      exact List.mem_cons_of_mem e (ih hl)

/-! ### Lower-bound lemmas -/

theorem lowerBound_eq_none_iff (hv : Nat) : ∀ r : RingMap,
    (lowerBound hv r = none ↔ ∀ e ∈ r, e.1 < hv) := by
  intro r
  induction r with
  | nil => simp [lowerBound]
  | cons a rest ih =>
    by_cases h1 : hv ≤ a.1
    · rw [lowerBound, if_pos h1]
      constructor
      · intro hc; exact absurd hc (by simp)
      · intro hall
        exact absurd (hall a (List.mem_cons_self a rest)) (Nat.not_lt.mpr h1)
    · rw [lowerBound, if_neg h1, ih]
      constructor
      · intro hall e he
        rcases List.mem_cons.mp he with h | h
        · rw [h]; exact Nat.lt_of_not_le h1
        · exact hall e h
      · intro hall e he
        exact hall e (List.mem_cons_of_mem a he)

theorem lowerBound_mem {hv : Nat} : ∀ {r : RingMap} {e : Nat × String},
    lowerBound hv r = some e → e ∈ r ∧ hv ≤ e.1 := by
  intro r
  induction r with
  | nil => intro e hlb; simp [lowerBound] at hlb
  | cons a rest ih =>
    intro e hlb
    by_cases h1 : hv ≤ a.1
    · rw [lowerBound, if_pos h1] at hlb
      exact ⟨(Option.some.inj hlb) ▸ List.mem_cons_self a rest,
        (Option.some.inj hlb) ▸ h1⟩
    · rw [lowerBound, if_neg h1] at hlb
      exact ⟨List.mem_cons_of_mem a (ih hlb).1, (ih hlb).2⟩

theorem lowerBound_min {hv : Nat} : ∀ {r : RingMap} {e : Nat × String}, RingSorted r →
    lowerBound hv r = some e → ∀ e' ∈ r, hv ≤ e'.1 → e.1 ≤ e'.1 := by
  intro r
  induction r with
  | nil => intro e _ hlb; simp [lowerBound] at hlb
  | cons a rest ih =>
    intro e hs hlb e' he' hge
    rw [RingSorted, List.pairwise_cons] at hs
    obtain ⟨ha, hrest⟩ := hs
    by_cases h1 : hv ≤ a.1
    · rw [lowerBound, if_pos h1] at hlb
      rcases List.mem_cons.mp he' with h | h
      · rw [← Option.some.inj hlb, h]
      · rw [← Option.some.inj hlb]
        exact Nat.le_of_lt (ha e' h)
    · rw [lowerBound, if_neg h1] at hlb
      rcases List.mem_cons.mp he' with h | h
      · rw [h] at hge; exact absurd hge h1
      · exact ih hrest hlb e' h hge

theorem head_min {a : Nat × String} {rest : RingMap} (hs : RingSorted (a :: rest)) :
    ∀ e ∈ a :: rest, a.1 ≤ e.1 := by
  rw [RingSorted, List.pairwise_cons] at hs
  intro e he
  rcases List.mem_cons.mp he with h | h
  · rw [h]
  · exact Nat.le_of_lt (hs.1 e h)

/-! ### Fold lemmas for `addNode` and `removeNode` -/

theorem foldIns_lookup (g : Nat → Nat) (nid : String) (k : Nat) : ∀ (l : List Nat)
    (r : RingMap), alLookup k (l.foldl (fun r i => ringInsert (g i) nid r) r) =
      if ∃ i ∈ l, g i = k then some nid else alLookup k r := by
  intro l
  induction l with
  | nil => intro r; simp
  | cons a l ih =>
    intro r
    rw [List.foldl_cons, ih]
    by_cases h1 : ∃ i ∈ l, g i = k
    · rw [if_pos h1, if_pos ⟨h1.choose, List.mem_cons_of_mem a h1.choose_spec.1,
        h1.choose_spec.2⟩]
    · by_cases h2 : g a = k
      · rw [if_neg h1, if_pos ⟨a, List.mem_cons_self a l, h2⟩, h2,
          alLookup_ringInsert_self]
      · rw [if_neg h1, if_neg ?_, alLookup_ringInsert_ne nid r (fun hc => h2 hc.symm)]
        intro hc
        obtain ⟨i, hi, hgi⟩ := hc
        rcases List.mem_cons.mp hi with h | h
        · exact h2 (h ▸ hgi)
        · exact h1 ⟨i, h, hgi⟩

theorem foldErase_lookup (g : Nat → Nat) (k : Nat) : ∀ (l : List Nat) (r : RingMap),
    alLookup k (l.foldl (fun r i => alErase (g i) r) r) =
      if ∃ i ∈ l, g i = k then none else alLookup k r := by
  intro l
  induction l with
  | nil => intro r; simp
  | cons a l ih =>
    intro r
    rw [List.foldl_cons, ih]
    by_cases h1 : ∃ i ∈ l, g i = k
    · rw [if_pos h1, if_pos ⟨h1.choose, List.mem_cons_of_mem a h1.choose_spec.1,
        h1.choose_spec.2⟩]
    · by_cases h2 : g a = k
      · rw [if_neg h1, if_pos ⟨a, List.mem_cons_self a l, h2⟩, h2, alLookup_alErase_self]
      · rw [if_neg h1, if_neg ?_, alLookup_alErase_ne r (fun hc => h2 hc.symm)]
        intro hc
        obtain ⟨i, hi, hgi⟩ := hc
        rcases List.mem_cons.mp hi with h | h
        · exact h2 (h ▸ hgi)
        · exact h1 ⟨i, h, hgi⟩

theorem foldIns_sorted (g : Nat → Nat) (nid : String) : ∀ (l : List Nat) (r : RingMap),
    RingSorted r → RingSorted (l.foldl (fun r i => ringInsert (g i) nid r) r) := by
  intro l
  induction l with
  | nil => intro r hs; exact hs
  | cons a l ih =>
    intro r hs
    rw [List.foldl_cons]
    exact ih _ (hs.insert _ _)

theorem foldErase_sorted (g : Nat → Nat) : ∀ (l : List Nat) (r : RingMap),
    RingSorted r → RingSorted (l.foldl (fun r i => alErase (g i) r) r) := by
  intro l
  induction l with
  | nil => intro r hs; exact hs
  | cons a l ih =>
    intro r hs
    rw [List.foldl_cons]
    exact ih _ (hs.erase _)

/-! ### Characterisation of `addNode` and `removeNode` -/

theorem addNode_nodes (h : String → Nat) (st : ConsistentHash) (n : Node) :
    (st.addNode h n).nodes = alInsert n.id n st.nodes := rfl

theorem addNode_vn (h : String → Nat) (st : ConsistentHash) (n : Node) :
    (st.addNode h n).virtual_nodes = st.virtual_nodes := rfl

theorem addNode_ring_lookup (h : String → Nat) (st : ConsistentHash) (n : Node) (k : Nat) :
    alLookup k (st.addNode h n).ring =
      if ∃ i < st.virtual_nodes, h (getVirtualNodeKey n.id i) = k then some n.id
      else alLookup k st.ring := by
  show alLookup k ((List.range st.virtual_nodes).foldl _ st.ring) = _
  rw [foldIns_lookup]
  by_cases hc : ∃ i < st.virtual_nodes, h (getVirtualNodeKey n.id i) = k
  · rw [if_pos hc, if_pos (by simpa [List.mem_range] using hc)]
  · rw [if_neg hc, if_neg (by simpa [List.mem_range] using hc)]

theorem addNode_sorted (h : String → Nat) (st : ConsistentHash) (n : Node)
    (hs : RingSorted st.ring) : RingSorted (st.addNode h n).ring :=
  foldIns_sorted _ _ _ _ hs

theorem removeNode_not_reg (h : String → Nat) (st : ConsistentHash) (x : String)
    (hreg : (alLookup x st.nodes).isSome = false) : st.removeNode h x = st := by
  rw [ConsistentHash.removeNode, if_neg (by simp [hreg])]

theorem removeNode_nodes (h : String → Nat) (st : ConsistentHash) (x : String)
    (hreg : (alLookup x st.nodes).isSome = true) :
    (st.removeNode h x).nodes = alErase x st.nodes := by
  rw [ConsistentHash.removeNode, if_pos hreg]

theorem removeNode_vn (h : String → Nat) (st : ConsistentHash) (x : String)
    (hreg : (alLookup x st.nodes).isSome = true) :
    (st.removeNode h x).virtual_nodes = st.virtual_nodes := by
  rw [ConsistentHash.removeNode, if_pos hreg]

theorem removeNode_ring_lookup (h : String → Nat) (st : ConsistentHash) (x : String)
    (hreg : (alLookup x st.nodes).isSome = true) (k : Nat) :
    alLookup k (st.removeNode h x).ring =
      if ∃ i < st.virtual_nodes, h (getVirtualNodeKey x i) = k then none
      else alLookup k st.ring := by
  rw [ConsistentHash.removeNode, if_pos hreg]
  show alLookup k ((List.range st.virtual_nodes).foldl _ st.ring) = _
  rw [foldErase_lookup]
  by_cases hc : ∃ i < st.virtual_nodes, h (getVirtualNodeKey x i) = k
  · rw [if_pos hc, if_pos (by simpa [List.mem_range] using hc)]
  · rw [if_neg hc, if_neg (by simpa [List.mem_range] using hc)]

theorem removeNode_sorted (h : String → Nat) (st : ConsistentHash) (x : String)
    (hs : RingSorted st.ring) : RingSorted (st.removeNode h x).ring := by
  rw [ConsistentHash.removeNode]
  by_cases hreg : (alLookup x st.nodes).isSome
  · rw [if_pos hreg]
    exact foldErase_sorted _ _ _ hs
  · rw [if_neg hreg]
    exact hs

/-! ### The weak reachability invariant -/

theorem invW_init (h : String → Nat) (vn : Nat) : InvW h (initRing vn) := by
  refine ⟨by simp [RingSorted, initRing], ?_, ?_⟩
  · intro id nd hl; simp [initRing, alLookup] at hl
  · intro k id hl; simp [initRing, alLookup] at hl

theorem invW_add (h : String → Nat) (st : ConsistentHash) (n : Node) (hw : InvW h st) :
    InvW h (st.addNode h n) := by
  obtain ⟨hsort, hreg, hback⟩ := hw
  refine ⟨addNode_sorted _ _ _ hsort, ?_, ?_⟩
  · intro id nd hl
    rw [addNode_nodes] at hl
    by_cases hid : id = n.id
    · rw [hid, alLookup_alInsert_self] at hl
      rw [← Option.some.inj hl, hid]
    · rw [alLookup_alInsert_ne _ _ hid] at hl
      exact hreg id nd hl
  · intro k id hl
    rw [addNode_ring_lookup] at hl
    rw [addNode_nodes, addNode_vn]
    by_cases hk : ∃ i < st.virtual_nodes, h (getVirtualNodeKey n.id i) = k
    · rw [if_pos hk] at hl
      have hid : id = n.id := (Option.some.inj hl).symm
      rw [hid, alLookup_alInsert_self]
      exact ⟨rfl, hk⟩
    · rw [if_neg hk] at hl
      obtain ⟨hsome, hex⟩ := hback k id hl
      refine ⟨?_, hex⟩
      by_cases hid : id = n.id
      · rw [hid, alLookup_alInsert_self]; rfl
      · rw [alLookup_alInsert_ne _ _ hid]; exact hsome

theorem invW_remove (h : String → Nat) (st : ConsistentHash) (x : String) (hw : InvW h st) :
    InvW h (st.removeNode h x) := by
  obtain ⟨hsort, hreg, hback⟩ := hw
  by_cases hx : (alLookup x st.nodes).isSome
  · refine ⟨removeNode_sorted _ _ _ hsort, ?_, ?_⟩
    · intro id nd hl
      rw [removeNode_nodes _ _ _ hx] at hl
      by_cases hid : id = x
      · rw [hid, alLookup_alErase_self] at hl; exact absurd hl (by simp)
      · rw [alLookup_alErase_ne _ hid] at hl
        exact hreg id nd hl
    · intro k id hl
      rw [removeNode_ring_lookup _ _ _ hx] at hl
      rw [removeNode_nodes _ _ _ hx, removeNode_vn _ _ _ hx]
      by_cases hk : ∃ i < st.virtual_nodes, h (getVirtualNodeKey x i) = k
      · rw [if_pos hk] at hl; exact absurd hl (by simp)
      · rw [if_neg hk] at hl
        obtain ⟨hsome, hex⟩ := hback k id hl
        have hid : id ≠ x := by
          intro hc
          obtain ⟨i, hi, hki⟩ := hex
          exact hk ⟨i, hi, by rw [← hc]; exact hki⟩
        rw [alLookup_alErase_ne _ hid]
        exact ⟨hsome, hex⟩
  · rw [removeNode_not_reg _ _ _ (by simpa using hx)]
    exact ⟨hsort, hreg, hback⟩

theorem invW_applyOps (h : String → Nat) : ∀ (ops : List RingOp) (st : ConsistentHash),
    InvW h st → InvW h (applyOps h ops st) := by
  intro ops
  induction ops with
  | nil => intro st hw; exact hw
  | cons op ops ih =>
    intro st hw
    show InvW h (applyOps h ops (applyOp h st op))
    cases op with
    | add n => exact ih _ (invW_add h st n hw)
    | remove x => exact ih _ (invW_remove h st x hw)

theorem invW_reachable (h : String → Nat) (vn : Nat) (ops : List RingOp) :
    InvW h (applyOps h ops (initRing vn)) :=
  invW_applyOps h ops _ (invW_init h vn)

/-! ### The strong reachability invariant -/

theorem invS_init (h : String → Nat) (vn : Nat) (ids : List String) :
    InvS h vn ids (initRing vn) := by
  refine ⟨rfl, by simp [RingSorted, initRing], ?_, ?_, ?_⟩
  · intro id nd hl; simp [initRing, alLookup] at hl
  · intro id hsome; simp [initRing, alLookup] at hsome
  · intro k id
    simp [initRing, alLookup]

theorem invS_add (h : String → Nat) (vn : Nat) (ids : List String) (st : ConsistentHash)
    (n : Node) (hs : InvS h vn ids st) (hn : n.id ∈ ids) (hinj : LabelsInj h vn ids) :
    InvS h vn ids (st.addNode h n) := by
  obtain ⟨hvn, hsort, hreg, hids, hchar⟩ := hs
  refine ⟨hvn ▸ addNode_vn h st n, addNode_sorted _ _ _ hsort, ?_, ?_, ?_⟩
  · intro id nd hl
    rw [addNode_nodes] at hl
    by_cases hid : id = n.id
    · rw [hid, alLookup_alInsert_self] at hl
      rw [← Option.some.inj hl, hid]
    · rw [alLookup_alInsert_ne _ _ hid] at hl
      exact hreg id nd hl
  · intro id hsome
    rw [addNode_nodes] at hsome
    by_cases hid : id = n.id
    · exact hid ▸ hn
    · rw [alLookup_alInsert_ne _ _ hid] at hsome
      exact hids id hsome
  · intro k id
    rw [addNode_ring_lookup, addNode_nodes, hvn]
    by_cases hk : ∃ i < vn, h (getVirtualNodeKey n.id i) = k
    · rw [if_pos hk]
      constructor
      · intro hl
        have hid : id = n.id := (Option.some.inj hl).symm
        rw [hid, alLookup_alInsert_self]
        exact ⟨rfl, hk⟩
      · rintro ⟨hsome, i, hi, hki⟩
        by_cases hid : id = n.id
        · rw [hid]
        · rw [alLookup_alInsert_ne _ _ hid] at hsome
          obtain ⟨i0, hi0, hki0⟩ := hk
          have := hinj id (hids id hsome) n.id hn i hi i0 hi0 (by rw [hki, hki0])
          exact absurd this.1 hid
    · rw [if_neg hk]
      constructor
      · intro hl
        obtain ⟨hsome, i, hi, hki⟩ := (hchar k id).mp hl
        have hid : id ≠ n.id := by
          intro hc
          exact hk ⟨i, hi, by rw [← hc]; exact hki⟩
        rw [alLookup_alInsert_ne _ _ hid]
        exact ⟨hsome, i, hi, hki⟩
      · rintro ⟨hsome, i, hi, hki⟩
        have hid : id ≠ n.id := by
          intro hc
          exact hk ⟨i, hi, by rw [← hc]; exact hki⟩
        rw [alLookup_alInsert_ne _ _ hid] at hsome
        exact (hchar k id).mpr ⟨hsome, i, hi, hki⟩

theorem invS_remove (h : String → Nat) (vn : Nat) (ids : List String) (st : ConsistentHash)
    (x : String) (hs : InvS h vn ids st) (hx : x ∈ ids) (hinj : LabelsInj h vn ids) :
    InvS h vn ids (st.removeNode h x) := by
  obtain ⟨hvn, hsort, hreg, hids, hchar⟩ := hs
  by_cases hxr : (alLookup x st.nodes).isSome
  · refine ⟨hvn ▸ removeNode_vn h st x hxr, removeNode_sorted _ _ _ hsort, ?_, ?_, ?_⟩
    · intro id nd hl
      rw [removeNode_nodes _ _ _ hxr] at hl
      by_cases hid : id = x
      · rw [hid, alLookup_alErase_self] at hl; exact absurd hl (by simp)
      · rw [alLookup_alErase_ne _ hid] at hl
        exact hreg id nd hl
    · intro id hsome
      rw [removeNode_nodes _ _ _ hxr] at hsome
      by_cases hid : id = x
      · rw [hid, alLookup_alErase_self] at hsome; simp at hsome
      · rw [alLookup_alErase_ne _ hid] at hsome
        exact hids id hsome
    · intro k id
      rw [removeNode_ring_lookup _ _ _ hxr, removeNode_nodes _ _ _ hxr, hvn]
      by_cases hk : ∃ i < vn, h (getVirtualNodeKey x i) = k
      · rw [if_pos hk]
        constructor
        · intro hl; exact absurd hl (by simp)
        · rintro ⟨hsome, i, hi, hki⟩
          by_cases hid : id = x
          · rw [hid, alLookup_alErase_self] at hsome; simp at hsome
          · rw [alLookup_alErase_ne _ hid] at hsome
            obtain ⟨i0, hi0, hki0⟩ := hk
            have := hinj id (hids id hsome) x hx i hi i0 hi0 (by rw [hki, hki0])
            exact absurd this.1 hid
      · rw [if_neg hk]
        constructor
        · intro hl
          obtain ⟨hsome, i, hi, hki⟩ := (hchar k id).mp hl
          have hid : id ≠ x := by
            intro hc
            exact hk ⟨i, hi, by rw [← hc]; exact hki⟩
          rw [alLookup_alErase_ne _ hid]
          exact ⟨hsome, i, hi, hki⟩
        · rintro ⟨hsome, i, hi, hki⟩
          by_cases hid : id = x
          · rw [hid, alLookup_alErase_self] at hsome; simp at hsome
          · rw [alLookup_alErase_ne _ hid] at hsome
            exact (hchar k id).mpr ⟨hsome, i, hi, hki⟩
  · rw [removeNode_not_reg _ _ _ (by simpa using hxr)]
    exact ⟨hvn, hsort, hreg, hids, hchar⟩

theorem invS_applyOps (h : String → Nat) (vn : Nat) (ids : List String) :
    ∀ (ops : List RingOp) (st : ConsistentHash), InvS h vn ids st →
      (∀ id ∈ opIds ops, id ∈ ids) → LabelsInj h vn ids →
      InvS h vn ids (applyOps h ops st) := by
  intro ops
  induction ops with
  | nil => intro st hs _ _; exact hs
  | cons op ops ih =>
    intro st hs hmem hinj
    have hop : op.opId ∈ ids := hmem op.opId (by simp [opIds])
    have hrest : ∀ id ∈ opIds ops, id ∈ ids := by
      intro id hid
      exact hmem id (by simp [opIds] at hid ⊢; exact Or.inr hid)
    show InvS h vn ids (applyOps h ops (applyOp h st op))
    cases op with
    | add n => exact ih _ (invS_add h vn ids st n hs hop hinj) hrest hinj
    | remove x => exact ih _ (invS_remove h vn ids st x hs hop hinj) hrest hinj

theorem invS_reachable (h : String → Nat) (vn : Nat) (ops : List RingOp)
    (hinj : LabelsInj h vn (opIds ops)) :
    InvS h vn (opIds ops) (applyOps h ops (initRing vn)) :=
  invS_applyOps h vn (opIds ops) ops _ (invS_init h vn (opIds ops)) (fun _ hm => hm) hinj

/-! ### Extensionality of sorted rings and the `getNode` selection lemma -/

theorem sortedExt : ∀ {r r' : RingMap}, RingSorted r → RingSorted r' →
    (∀ k, alLookup k r = alLookup k r') → r = r' := by
  intro r
  induction r with
  | nil =>
    intro r' _ _ hlook
    cases r' with
    | nil => rfl
    | cons b rest' =>
      have := hlook b.1
      rw [alLookup_cons_self rest' rfl] at this
      simp [alLookup] at this
  | cons a rest ih =>
    intro r' hs hs' hlook
    cases r' with
    | nil =>
      have := hlook a.1
      rw [alLookup_cons_self rest rfl] at this
      simp [alLookup] at this
    | cons b rest' =>
      have hmema : (a.1, a.2) ∈ b :: rest' := by
        apply mem_of_lookup (v := a.2)
        rw [← hlook a.1, alLookup_cons_self rest rfl]
      have hmemb : (b.1, b.2) ∈ a :: rest := by
        apply mem_of_lookup (v := b.2)
        rw [hlook b.1, alLookup_cons_self rest' rfl]
      have hab : a.1 = b.1 :=
        Nat.le_antisymm (head_min hs (b.1, b.2) hmemb) (head_min hs' (a.1, a.2) hmema)
      have hvals : b.2 = a.2 := by
        have h1 := hlook a.1
        rw [alLookup_cons_self rest rfl, alLookup_cons_self rest' hab.symm] at h1
        exact Option.some.inj h1.symm
      have hhead : a = b := Prod.ext hab (hvals.symm)
      have htails : ∀ k, alLookup k rest = alLookup k rest' := by
        intro k
        by_cases hk : a.1 = k
        · rw [← hk]
          cases hrest : alLookup a.1 rest with
          | none =>
            cases hrest' : alLookup a.1 rest' with
            | none => rfl
            | some v =>
              have hmem := mem_of_lookup hrest'
              rw [RingSorted, List.pairwise_cons] at hs'
              have hlt := hs'.1 (a.1, v) hmem
              rw [hab] at hlt
              exact absurd hlt (lt_irrefl _)
          | some v =>
            have hmem := mem_of_lookup hrest
            rw [RingSorted, List.pairwise_cons] at hs
            have hlt := hs.1 (a.1, v) hmem
            exact absurd hlt (lt_irrefl _)
        · have h1 := hlook k
          rw [alLookup_cons_ne rest (fun hc => hk hc),
            alLookup_cons_ne rest' (fun hc => hk (hab.trans hc))] at h1
          exact h1
      rw [RingSorted, List.pairwise_cons] at hs hs'
      rw [hhead, ih hs.2 hs'.2 htails]

theorem getNode_entry (h : String → Nat) (st : ConsistentHash) (key : String)
    {a : Nat × String} {rest : RingMap} (hr : st.ring = a :: rest) :
    st.getNode h key =
      (match alLookup ((lowerBound (h key) (a :: rest)).getD a).2 st.nodes with
        | some n => Except.ok n
        | none =>
          Except.error (GetErr.registryMiss ((lowerBound (h key) (a :: rest)).getD a).2)) := by
  rw [ConsistentHash.getNode]
  rw [hr]
  simp only [List.isEmpty_cons, Bool.false_eq_true, if_false, List.headD_cons]

theorem getNode_spec (h : String → Nat) (st : ConsistentHash) (key : String)
    (hw : InvW h st) {a : Nat × String} {rest : RingMap} (hr : st.ring = a :: rest) :
    ∃ e n, e ∈ st.ring ∧ alLookup e.2 st.nodes = some n ∧
      st.getNode h key = .ok n ∧ n.id = e.2 := by
  obtain ⟨hsort, hreg, hback⟩ := hw
  refine ⟨(lowerBound (h key) (a :: rest)).getD a, ?_⟩
  have hmem : (lowerBound (h key) (a :: rest)).getD a ∈ st.ring := by
    cases hlb : lowerBound (h key) (a :: rest) with
    | none => rw [Option.getD_none, hr]; exact List.mem_cons_self a rest
    | some e' => rw [Option.getD_some, hr]; exact (lowerBound_mem hlb).1
  have hlook : alLookup ((lowerBound (h key) (a :: rest)).getD a).1 st.ring =
      some ((lowerBound (h key) (a :: rest)).getD a).2 := by
    apply lookup_of_mem hsort
    rw [Prod.mk.eta]
    exact hmem
  obtain ⟨hsome, -⟩ := hback _ _ hlook
  obtain ⟨n, hn⟩ := Option.isSome_iff_exists.mp hsome
  refine ⟨n, hmem, hn, ?_, hreg _ n hn⟩
  rw [getNode_entry h st key hr, hn]

theorem consistentHash_eq {s t : ConsistentHash} (h1 : s.virtual_nodes = t.virtual_nodes)
    (h2 : s.ring = t.ring) (h3 : s.nodes = t.nodes) : s = t := by
  cases s; cases t; simp_all

/-! ### Claim theorems -/

/-- C1: for every non-empty ring and every key, `getNode(key)` returns the
node registered under the identifier stored at the smallest ring hash value
that is at least `hash(key)`; when no ring hash value is at least
`hash(key)` it wraps around to the entry with the smallest ring hash value;
for the empty ring it fails with the `NoNodesAvailable` condition. -/
theorem C1_getNode_clockwise (h : String → Nat) (st : ConsistentHash) (key : String)
    (hs : RingSorted st.ring) :
    (st.ring = [] → st.getNode h key = .error .noNodesAvailable) ∧
    (∀ k id n, (k, id) ∈ st.ring → h key ≤ k →
      (∀ e ∈ st.ring, h key ≤ e.1 → k ≤ e.1) →
      alLookup id st.nodes = some n → st.getNode h key = .ok n) ∧
    ((∀ e ∈ st.ring, e.1 < h key) →
      ∀ k id n, (k, id) ∈ st.ring → (∀ e ∈ st.ring, k ≤ e.1) →
      alLookup id st.nodes = some n → st.getNode h key = .ok n) := by
  refine ⟨?_, ?_, ?_⟩
  · intro hr
    rw [ConsistentHash.getNode, hr]
    rfl
  · intro k id n hmem hge hmin hlook
    cases hr : st.ring with
    | nil => rw [hr] at hmem; simp at hmem
    | cons a rest =>
      cases hlb : lowerBound (h key) (a :: rest) with
      | none =>
        have hall := (lowerBound_eq_none_iff (h key) (a :: rest)).mp hlb
        have hlt := hall (k, id) (hr ▸ hmem)
        exact absurd hge (Nat.not_le.mpr hlt)
      | some e' =>
        have hmem' : e' ∈ st.ring := hr.symm ▸ (lowerBound_mem hlb).1
        have hge' : h key ≤ e'.1 := (lowerBound_mem hlb).2
        have h1 : e'.1 ≤ k := lowerBound_min (hr ▸ hs) hlb (k, id) (hr ▸ hmem) hge
        have h2 : k ≤ e'.1 := hmin e' hmem' hge'
        have hkey : e'.1 = k := Nat.le_antisymm h1 h2
        have hlk : alLookup k st.ring = some id := lookup_of_mem hs hmem
        have hlk' : alLookup e'.1 st.ring = some e'.2 := by
          apply lookup_of_mem hs; rw [Prod.mk.eta]; exact hmem'
        have hval : e'.2 = id := by
          rw [hkey] at hlk'
          exact Option.some.inj (hlk'.symm.trans hlk)
        rw [getNode_entry h st key hr, hlb, Option.getD_some, hval, hlook]
  · intro hall k id n hmem hmin hlook
    cases hr : st.ring with
    | nil => rw [hr] at hmem; simp at hmem
    | cons a rest =>
      have hlb : lowerBound (h key) (a :: rest) = none := by
        rw [lowerBound_eq_none_iff]
        intro e he; exact hall e (hr.symm ▸ he)
      have hmema : a ∈ st.ring := hr.symm ▸ List.mem_cons_self a rest
      have h1 : k ≤ a.1 := hmin a hmema
      have h2 : a.1 ≤ k := head_min (hr ▸ hs) (k, id) (hr ▸ hmem)
      have hkey : a.1 = k := Nat.le_antisymm h2 h1
      have hlk : alLookup k st.ring = some id := lookup_of_mem hs hmem
      have hlk' : alLookup a.1 st.ring = some a.2 := by
        apply lookup_of_mem hs; rw [Prod.mk.eta]; exact hmema
      have hval : a.2 = id := by
        rw [hkey] at hlk'
        exact Option.some.inj (hlk'.symm.trans hlk)
      rw [getNode_entry h st key hr, hlb, Option.getD_none, hval, hlook]

/-- C1 witness: on the concrete two-node ring, key "x" (hash 120) resolves
to the entry at position 148 (node "A"), and key "zz" (hash 244) exceeds
every position and wraps around to position 148 (node "A"). -/
theorem C1_witness :
    RingSorted demoState.ring ∧
    demoState.getNode demoHash "x" = .ok nodeA ∧
    demoState.getNode demoHash "zz" = .ok nodeA := by
  refine ⟨by decide, ?_, ?_⟩
  · exact (C1_getNode_clockwise demoHash demoState "x" (by decide)).2.1 148 "A" nodeA
      (by decide) (by decide) (by decide) (by decide)
  · exact (C1_getNode_clockwise demoHash demoState "zz" (by decide)).2.2 (by decide) 148 "A"
      nodeA (by decide) (by decide) (by decide)

/-- C10: on every ring state reachable by membership operations from the
empty ring, every ring entry names a registered node, and on a non-empty
ring `getNode` always succeeds: its only failure mode is the empty-ring
`NoNodesAvailable` condition. -/
theorem C10_ring_backed (h : String → Nat) (vn : Nat) (ops : List RingOp) (key : String)
    (st : ConsistentHash) (hst : st = applyOps h ops (initRing vn)) :
    (∀ e ∈ st.ring, st.hasNode e.2 = true) ∧
    (st.ring ≠ [] → ∃ n, st.getNode h key = .ok n) := by
  have hw : InvW h st := hst.symm ▸ invW_reachable h vn ops
  obtain ⟨hsort, hreg, hback⟩ := hw
  constructor
  · intro e he
    have hlk : alLookup e.1 st.ring = some e.2 := by
      apply lookup_of_mem hsort; rw [Prod.mk.eta]; exact he
    exact (hback e.1 e.2 hlk).1
  · intro hne
    cases hr : st.ring with
    | nil => exact absurd hr hne
    | cons a rest =>
      obtain ⟨e, n, -, -, hok, -⟩ := getNode_spec h st key ⟨hsort, hreg, hback⟩ hr
      exact ⟨n, hok⟩

/-- C10 witness: the concrete two-node ring is non-empty and `getNode`
succeeds on it. -/
theorem C10_witness : demoState.ring ≠ [] ∧ demoState.getNode demoHash "x" = .ok nodeA := by
  have hm := C10_ring_backed demoHash 1 [RingOp.add nodeA, RingOp.add nodeB] "x"
    demoState rfl
  refine ⟨by decide, ?_⟩
  obtain ⟨n, hok⟩ := hm.2 (by decide)
  have hn : n = nodeA := by
    have h0 : (Except.ok n : Except GetErr Node) = Except.ok nodeA :=
      hok.symm.trans rfl
    exact Except.ok.inj h0
  exact hn ▸ hok

/-- C4: removing an unregistered identifier is a no-op; after removing a
registered identifier `X`, `hasNode(X)` is false, no ring entry resolves to
`X`, and every key now resolves to some other registered node, or getNode
fails with `NoNodesAvailable` when the ring became empty. -/
theorem C4_removeNode_spec (h : String → Nat) (vn : Nat) (ops : List RingOp) (x key : String)
    (st st' : ConsistentHash) (hst : st = applyOps h ops (initRing vn))
    (hst' : st' = st.removeNode h x) :
    (st.hasNode x = false → st' = st) ∧
    (st.hasNode x = true →
      st'.hasNode x = false ∧
      (∀ e ∈ st'.ring, e.2 ≠ x) ∧
      (st'.ring = [] → st'.getNode h key = .error .noNodesAvailable) ∧
      (st'.ring ≠ [] →
        ∃ n, st'.getNode h key = .ok n ∧ n.id ≠ x ∧ st'.hasNode n.id = true)) := by
  have hw : InvW h st := hst.symm ▸ invW_reachable h vn ops
  constructor
  · intro hno
    rw [hst', removeNode_not_reg h st x (by simpa [ConsistentHash.hasNode] using hno)]
  · intro hyes
    have hxr : (alLookup x st.nodes).isSome = true := by
      simpa [ConsistentHash.hasNode] using hyes
    have hw' : InvW h st' := hst'.symm ▸ invW_remove h st x hw
    obtain ⟨hsort, hreg, hback⟩ := hw
    obtain ⟨hsort', hreg', hback'⟩ := hw'
    have hentries : ∀ e ∈ st'.ring, e.2 ≠ x := by
      intro e he hex
      have hlk : alLookup e.1 st'.ring = some e.2 := by
        apply lookup_of_mem hsort'; rw [Prod.mk.eta]; exact he
      rw [hst', removeNode_ring_lookup h st x hxr] at hlk
      by_cases hk : ∃ i < st.virtual_nodes, h (getVirtualNodeKey x i) = e.1
      · rw [if_pos hk] at hlk; exact absurd hlk (by simp)
      · rw [if_neg hk] at hlk
        obtain ⟨-, i, hi, hki⟩ := hback e.1 e.2 hlk
        exact hk ⟨i, hi, by rw [← hex]; exact hki⟩
    refine ⟨?_, hentries, ?_, ?_⟩
    · rw [hst']
      show (alLookup x (st.removeNode h x).nodes).isSome = false
      rw [removeNode_nodes h st x hxr, alLookup_alErase_self]
      rfl
    · intro hr
      rw [ConsistentHash.getNode, hr]
      rfl
    · intro hne
      cases hr : st'.ring with
      | nil => exact absurd hr hne
      | cons a rest =>
        obtain ⟨e, n, hmem, hn, hok, hid⟩ := getNode_spec h st' key ⟨hsort', hreg', hback'⟩ hr
        refine ⟨n, hok, ?_, ?_⟩
        · rw [hid]; exact hentries e hmem
        · show (alLookup n.id st'.nodes).isSome = true
          rw [hid, hn]; rfl

/-- C4 witness: removing node "B" from the concrete two-node ring leaves a
state where `hasNode "B"` is false and the key previously owned by "B"
(key "a4", hash 149) now resolves to node "A". -/
theorem C4_witness :
    demoState.hasNode "B" = true ∧
    (demoState.removeNode demoHash "B").hasNode "B" = false ∧
    (demoState.removeNode demoHash "B").getNode demoHash "a4" = .ok nodeA ∧
    nodeA.id ≠ "B" := by
  have hm := (C4_removeNode_spec demoHash 1 [RingOp.add nodeA, RingOp.add nodeB] "B" "a4"
    demoState (demoState.removeNode demoHash "B") rfl rfl).2 (by decide)
  obtain ⟨h1, h2, h3, h4⟩ := hm
  obtain ⟨n, hok, hne, hhn⟩ := h4 (by decide)
  have hA : (demoState.removeNode demoHash "B").getNode demoHash "a4" = .ok nodeA := rfl
  exact ⟨by decide, h1, hA, by decide⟩

/-- C2: on every collision-free ring state reachable by membership
operations from the empty ring, every registered identifier owns exactly
`virtualNodesPerPhysicalNode` ring entries; the spec's "modulo hash
collisions" proviso is rendered as the `LabelsInj` hypothesis on the
abstracted hash. -/
theorem C2_virtual_node_count (h : String → Nat) (vn : Nat) (ops : List RingOp)
    (id : String) (st : ConsistentHash) (hst : st = applyOps h ops (initRing vn))
    (hinj : LabelsInj h vn (opIds ops)) (hmem : st.hasNode id = true) :
    (st.ring.filter (fun e => decide (e.2 = id))).length = vn := by
  have hS : InvS h vn (opIds ops) st := hst.symm ▸ invS_reachable h vn ops hinj
  obtain ⟨hvn, hsort, hreg, hids, hchar⟩ := hS
  have hsome : (alLookup id st.nodes).isSome = true := by
    simpa [ConsistentHash.hasNode] using hmem
  have hid : id ∈ opIds ops := hids id hsome
  have hkeysnodup : ((st.ring.filter (fun e => decide (e.2 = id))).map Prod.fst).Nodup := by
    have hringkeys : (st.ring.map Prod.fst).Nodup := by
      rw [List.Nodup, List.pairwise_map]
      exact hsort.imp (fun hab => Nat.ne_of_lt hab)
    exact hringkeys.sublist (List.Sublist.map Prod.fst (List.filter_sublist st.ring))
  have hK : ((List.range vn).map (fun i => h (getVirtualNodeKey id i))).Nodup := by
    apply List.Nodup.map_on ?_ (List.nodup_range vn)
    intro i hi j hj hij
    exact (hinj id hid id hid i (List.mem_range.mp hi) j (List.mem_range.mp hj) hij).2
  have hiff : ∀ k, k ∈ (st.ring.filter (fun e => decide (e.2 = id))).map Prod.fst ↔
      k ∈ (List.range vn).map (fun i => h (getVirtualNodeKey id i)) := by
    intro k
    constructor
    · intro hk
      obtain ⟨e, hef, hek⟩ := List.mem_map.mp hk
      obtain ⟨her, hep⟩ := List.mem_filter.mp hef
      have heid : e.2 = id := by simpa using hep
      have hlk : alLookup e.1 st.ring = some e.2 := by
        apply lookup_of_mem hsort; rw [Prod.mk.eta]; exact her
      rw [heid] at hlk
      obtain ⟨-, i, hi, hki⟩ := (hchar e.1 id).mp hlk
      exact List.mem_map.mpr ⟨i, List.mem_range.mpr hi, by rw [hki, hek]⟩
    · intro hk
      obtain ⟨i, hi, hik⟩ := List.mem_map.mp hk
      have hlk : alLookup k st.ring = some id :=
        (hchar k id).mpr ⟨hsome, i, List.mem_range.mp hi, hik⟩
      have hmem' : (k, id) ∈ st.ring := mem_of_lookup hlk
      exact List.mem_map.mpr ⟨(k, id), List.mem_filter.mpr ⟨hmem', by simp⟩, rfl⟩
  have hperm := (List.perm_ext_iff_of_nodup hkeysnodup hK).mpr hiff
  have hlen := hperm.length_eq
  rw [List.length_map, List.length_map] at hlen
  rw [hlen, List.length_range]

/-- C2 witness: on the concrete collision-free two-node ring with one
virtual node per physical node, identifier "A" owns exactly one entry. -/
theorem C2_witness :
    LabelsInj demoHash 1 (opIds [RingOp.add nodeA, RingOp.add nodeB]) ∧
    demoState.hasNode "A" = true ∧
    (demoState.ring.filter (fun e => decide (e.2 = "A"))).length = 1 := by
  refine ⟨by decide, by decide, ?_⟩
  exact C2_virtual_node_count demoHash 1 [RingOp.add nodeA, RingOp.add nodeB] "A"
    demoState rfl (by decide) (by decide)

/-- C3 counterexample: the claim fails when the added node is already
registered. On the one-node ring holding "A", `addNode(nodeA)` followed by
`removeNode("A")` empties the ring, so `getNode("x")` flips from node "A"
to the `NoNodesAvailable` failure. -/
theorem C3_counterexample :
    ((demoStateA.addNode demoHash nodeA).removeNode demoHash "A").getNode demoHash "x" ≠
      demoStateA.getNode demoHash "x" := by
  have h1 : demoStateA.getNode demoHash "x" = .ok nodeA := rfl
  have h2 : ((demoStateA.addNode demoHash nodeA).removeNode demoHash "A").getNode
      demoHash "x" = .error .noNodesAvailable := rfl
  rw [h1, h2]
  intro hc
  exact Except.noConfusion hc

/-- C3 amended: on every collision-free reachable ring state, adding a node
whose identifier is NOT yet registered and then removing it restores every
key-to-node assignment to what it was before the add. -/
theorem C3_add_remove_roundtrip (h : String → Nat) (vn : Nat) (ids : List String)
    (ops : List RingOp) (n : Node) (key : String) (st : ConsistentHash)
    (hst : st = applyOps h ops (initRing vn))
    (hmem : ∀ id ∈ opIds ops, id ∈ ids) (hn : n.id ∈ ids)
    (hinj : LabelsInj h vn ids)
    (hfresh : st.hasNode n.id = false) :
    ((st.addNode h n).removeNode h n.id).getNode h key = st.getNode h key := by
  have hS : InvS h vn ids st :=
    hst.symm ▸ invS_applyOps h vn ids ops _ (invS_init h vn ids) hmem hinj
  obtain ⟨hvn, hsort, hreg, hids, hchar⟩ := hS
  have hfr : alLookup n.id st.nodes = none := by
    cases hcase : alLookup n.id st.nodes with
    | none => rfl
    | some nd => rw [ConsistentHash.hasNode, hcase] at hfresh; simp at hfresh
  have hreg' : (alLookup n.id (st.addNode h n).nodes).isSome = true := by
    rw [addNode_nodes, alLookup_alInsert_self]; rfl
  have hnodes : ((st.addNode h n).removeNode h n.id).nodes = st.nodes := by
    rw [removeNode_nodes _ _ _ hreg', addNode_nodes, alInsert,
      @alErase_cons_self String Node _ n.id (n.id, n) (alErase n.id st.nodes) rfl,
      alErase_of_lookup_none (alLookup_alErase_self n.id st.nodes)]
    exact alErase_of_lookup_none hfr
  have hring : ((st.addNode h n).removeNode h n.id).ring = st.ring := by
    apply sortedExt
    · exact removeNode_sorted _ _ _ (addNode_sorted _ _ _ hsort)
    · exact hsort
    · intro k
      rw [removeNode_ring_lookup _ _ _ hreg', addNode_ring_lookup, addNode_vn, hvn]
      by_cases hk : ∃ i < vn, h (getVirtualNodeKey n.id i) = k
      · rw [if_pos hk]
        cases hcase : alLookup k st.ring with
        | none => rfl
        | some id =>
          obtain ⟨hsome, j, hj, hkj⟩ := (hchar k id).mp hcase
          obtain ⟨i, hi, hki⟩ := hk
          have heq := hinj id (hids id hsome) n.id hn j hj i hi (by rw [hkj, hki])
          rw [heq.1, hfr] at hsome
          simp at hsome
      · rw [if_neg hk, if_neg hk]
  have hvn' : ((st.addNode h n).removeNode h n.id).virtual_nodes = st.virtual_nodes := by
    rw [removeNode_vn _ _ _ hreg', addNode_vn]
  rw [consistentHash_eq hvn' hring hnodes]

/-- C3 witness: adding the fresh node "B" to the one-node ring holding "A"
and removing it again leaves `getNode("x")` unchanged. -/
theorem C3_witness :
    demoStateA.hasNode nodeB.id = false ∧
    ((demoStateA.addNode demoHash nodeB).removeNode demoHash nodeB.id).getNode demoHash "x" =
      demoStateA.getNode demoHash "x" := by
  refine ⟨by decide, ?_⟩
  exact C3_add_remove_roundtrip demoHash 1 ["A", "B"] [RingOp.add nodeA] nodeB "x"
    demoStateA rfl (by decide) (by decide) (by decide) (by decide)

/-- C5: every cache operation routes by ownership: when the ring's owner is
this node the operation acts on the local store and issues no remote call;
otherwise it issues exactly one remote call to the owner and returns that
single call's result unchanged. -/
theorem C5_routing (h : String → Nat) (rpc : RpcClient) (sv : CacheServer)
    (key value : String) :
    (sv.isLocalKey h key = true →
      CacheServer.get h rpc sv key = .ok (sv.getLocal key, []) ∧
      CacheServer.set h rpc sv key value = .ok (sv.setLocal key value, []) ∧
      CacheServer.del h rpc sv key = .ok (sv.delLocal key, [])) ∧
    (sv.isLocalKey h key = false →
      ∃ target, sv.hash_ring.getNode h key = .ok target ∧ target.id ≠ sv.node_id ∧
        CacheServer.get h rpc sv key =
          .ok (rpc.rpcGet target key, [.callGet target key]) ∧
        CacheServer.set h rpc sv key value =
          .ok ((rpc.rpcSet target key value, sv), [.callSet target key value]) ∧
        CacheServer.del h rpc sv key =
          .ok ((rpc.rpcDel target key, sv), [.callDel target key])) := by
  constructor
  · intro hl
    refine ⟨?_, ?_, ?_⟩ <;> simp [CacheServer.get, CacheServer.set, CacheServer.del, hl]
  · intro hl
    cases hgn : sv.hash_ring.getNode h key with
    | error e => simp [CacheServer.isLocalKey, hgn] at hl
    | ok target =>
      have hne : target.id ≠ sv.node_id := by
        simp [CacheServer.isLocalKey, hgn] at hl
        exact hl
      refine ⟨target, rfl, hne, ?_, ?_, ?_⟩ <;>
        simp [CacheServer.get, CacheServer.set, CacheServer.del, hl, hgn]

/-- C5 witness: on the concrete server "A", key "x" is served locally with
no remote call, and key "a4" (owned by "B") triggers exactly one remote
Get/Set/Delete whose result is returned unchanged. -/
theorem C5_witness :
    (demoServer.isLocalKey demoHash "x" = true ∧
      CacheServer.get demoHash demoRpc demoServer "x" = .ok (demoServer.getLocal "x", [])) ∧
    (demoServer.isLocalKey demoHash "a4" = false ∧
      CacheServer.get demoHash demoRpc demoServer "a4" =
        .ok (demoRpc.rpcGet nodeB "a4", [RemoteCall.callGet nodeB "a4"]) ∧
      CacheServer.set demoHash demoRpc demoServer "a4" "v" =
        .ok ((demoRpc.rpcSet nodeB "a4" "v", demoServer), [RemoteCall.callSet nodeB "a4" "v"]) ∧
      CacheServer.del demoHash demoRpc demoServer "a4" =
        .ok ((demoRpc.rpcDel nodeB "a4", demoServer), [RemoteCall.callDel nodeB "a4"])) := by
  constructor
  · have hm := (C5_routing demoHash demoRpc demoServer "x" "v").1 (by decide)
    exact ⟨by decide, hm.1⟩
  · have hm := (C5_routing demoHash demoRpc demoServer "a4" "v").2 (by decide)
    obtain ⟨t, hgn, hne, hg, hs2, hd⟩ := hm
    have ht : t = nodeB := by
      have h0 : (Except.ok t : Except GetErr Node) = Except.ok nodeB := hgn.symm.trans rfl
      exact Except.ok.inj h0
    subst ht
    exact ⟨by decide, hg, hs2, hd⟩

/-- C6: when the ring lookup signals `NoNodesAvailable`, `isLocalKey`
returns true and the cache operations are served from the local store
instead of propagating the error (fail-open). -/
theorem C6_fail_open (h : String → Nat) (rpc : RpcClient) (sv : CacheServer)
    (key value : String)
    (he : sv.hash_ring.getNode h key = .error .noNodesAvailable) :
    sv.isLocalKey h key = true ∧
    CacheServer.get h rpc sv key = .ok (sv.getLocal key, []) ∧
    CacheServer.set h rpc sv key value = .ok (sv.setLocal key value, []) ∧
    CacheServer.del h rpc sv key = .ok (sv.delLocal key, []) := by
  have hl : sv.isLocalKey h key = true := by
    simp [CacheServer.isLocalKey, he]
  refine ⟨hl, ?_, ?_, ?_⟩ <;>
    simp [CacheServer.get, CacheServer.set, CacheServer.del, hl]

/-- C6 witness: the concrete empty-ring server treats key "x" as local and
serves it from its local store. -/
theorem C6_witness :
    demoServerEmpty.hash_ring.getNode demoHash "x" = .error .noNodesAvailable ∧
    demoServerEmpty.isLocalKey demoHash "x" = true ∧
    CacheServer.get demoHash demoRpc demoServerEmpty "x" =
      .ok (demoServerEmpty.getLocal "x", []) := by
  have hm := C6_fail_open demoHash demoRpc demoServerEmpty "x" "v" rfl
  exact ⟨rfl, hm.1, hm.2.1⟩

/-- C7: for a locally owned key, `del` succeeds exactly when the key was
present in the local store before the call, and a second `del` of the same
key with no intervening `set` fails. -/
theorem C7_del_iff_present (h : String → Nat) (rpc : RpcClient) (sv : CacheServer)
    (key : String) (hl : sv.isLocalKey h key = true) :
    ∃ sv1, CacheServer.del h rpc sv key =
        .ok (((alLookup key sv.local_cache).isSome, sv1), []) ∧
      CacheServer.del h rpc sv1 key = .ok ((false, sv1), []) := by
  cases hc : alLookup key sv.local_cache with
  | none =>
    refine ⟨sv, ?_, ?_⟩ <;>
      simp [CacheServer.del, hl, CacheServer.delLocal, hc]
  | some v =>
    refine ⟨{ sv with local_cache := alErase key sv.local_cache }, ?_, ?_⟩
    · simp [CacheServer.del, hl, CacheServer.delLocal, hc]
    · have hl1 : CacheServer.isLocalKey h
          { sv with local_cache := alErase key sv.local_cache } key = true := hl
      simp [CacheServer.del, hl1, CacheServer.delLocal, alLookup_alErase_self]

/-- C7 witness: on the concrete server, deleting present key "u" succeeds
and deleting it again fails. -/
theorem C7_witness :
    CacheServer.del demoHash demoRpc demoServer "u" = .ok ((true, demoServerDel), []) ∧
    CacheServer.del demoHash demoRpc demoServerDel "u" = .ok ((false, demoServerDel), []) := by
  obtain ⟨sv1, h1, h2⟩ := C7_del_iff_present demoHash demoRpc demoServer "u" (by decide)
  have hc : CacheServer.del demoHash demoRpc demoServer "u" =
      .ok ((true, demoServerDel), []) := rfl
  have heq := h1.symm.trans hc
  simp only [Except.ok.injEq, Prod.mk.injEq] at heq
  obtain ⟨⟨-, hsv⟩, -⟩ := heq
  exact ⟨hc, hsv ▸ h2⟩

/-- C8: on the node owning key `k`, `set(k, v)` followed by `get(k)`
returns `(found = true, v)`, and `del(k)` followed by `get(k)` returns
`found = false`. -/
theorem C8_roundtrip (h : String → Nat) (rpc : RpcClient) (sv : CacheServer)
    (key value : String) (hl : sv.isLocalKey h key = true) :
    (∃ sv1, CacheServer.set h rpc sv key value = .ok ((true, sv1), []) ∧
      CacheServer.get h rpc sv1 key = .ok ((true, value), [])) ∧
    (∃ b sv2, CacheServer.del h rpc sv key = .ok ((b, sv2), []) ∧
      CacheServer.get h rpc sv2 key = .ok ((false, ""), [])) := by
  constructor
  · refine ⟨{ sv with local_cache := alInsert key value sv.local_cache }, ?_, ?_⟩
    · simp [CacheServer.set, hl, CacheServer.setLocal]
    · have hl1 : CacheServer.isLocalKey h
          { sv with local_cache := alInsert key value sv.local_cache } key = true := hl
      simp [CacheServer.get, hl1, CacheServer.getLocal, alLookup_alInsert_self]
  · cases hc : alLookup key sv.local_cache with
    | none =>
      refine ⟨false, sv, ?_, ?_⟩
      · simp [CacheServer.del, hl, CacheServer.delLocal, hc]
      · simp [CacheServer.get, hl, CacheServer.getLocal, hc]
    | some v =>
      refine ⟨true, { sv with local_cache := alErase key sv.local_cache }, ?_, ?_⟩
      · simp [CacheServer.del, hl, CacheServer.delLocal, hc]
      · have hl2 : CacheServer.isLocalKey h
            { sv with local_cache := alErase key sv.local_cache } key = true := hl
        simp [CacheServer.get, hl2, CacheServer.getLocal, alLookup_alErase_self]

/-- C8 witness: on the concrete server "A", set "x" to "42" then get "x"
yields (true, "42"), and del "u" then get "u" yields found = false. -/
theorem C8_witness :
    CacheServer.set demoHash demoRpc demoServer "x" "42" =
      .ok ((true, demoServerSet), []) ∧
    CacheServer.get demoHash demoRpc demoServerSet "x" = .ok ((true, "42"), []) ∧
    CacheServer.get demoHash demoRpc demoServerDel "u" = .ok ((false, ""), []) := by
  have hm := C8_roundtrip demoHash demoRpc demoServer "x" "42" (by decide)
  obtain ⟨sv1, hset, hget⟩ := hm.1
  have hc : CacheServer.set demoHash demoRpc demoServer "x" "42" =
      .ok ((true, demoServerSet), []) := rfl
  have heq := hset.symm.trans hc
  simp only [Except.ok.injEq, Prod.mk.injEq] at heq
  obtain ⟨⟨-, hsv⟩, -⟩ := heq
  have hm2 := C8_roundtrip demoHash demoRpc demoServer "u" "v" (by decide)
  obtain ⟨b, sv2, hdel, hget2⟩ := hm2.2
  have hcd : CacheServer.del demoHash demoRpc demoServer "u" =
      .ok ((true, demoServerDel), []) := rfl
  have heq2 := hdel.symm.trans hcd
  simp only [Except.ok.injEq, Prod.mk.injEq] at heq2
  obtain ⟨⟨-, hsv2⟩, -⟩ := heq2
  exact ⟨hc, hsv ▸ hget, hsv2 ▸ hget2⟩

/-- C9: the server-side gRPC Get/Set/Delete handlers act only on the local
store: they issue no remote call and their behaviour is invariant under
replacing the hash ring; the Health handler always reports healthy together
with this node's own identifier. -/
theorem C9_handlers_local_only (sv : CacheServer) (r : ConsistentHash) (key value : String) :
    sv.handleGet key = (sv.getLocal key, []) ∧
    (setRing sv r).handleGet key = sv.handleGet key ∧
    sv.handleSet key value = (sv.setLocal key value, []) ∧
    ((setRing sv r).handleSet key value).1.1 = (sv.handleSet key value).1.1 ∧
    ((setRing sv r).handleSet key value).1.2 = setRing (sv.handleSet key value).1.2 r ∧
    ((setRing sv r).handleSet key value).2 = [] ∧
    sv.handleDelete key = (sv.delLocal key, []) ∧
    ((setRing sv r).handleDelete key).1.1 = (sv.handleDelete key).1.1 ∧
    ((setRing sv r).handleDelete key).1.2 = setRing (sv.handleDelete key).1.2 r ∧
    ((setRing sv r).handleDelete key).2 = [] ∧
    sv.handleHealth = (true, sv.node_id) ∧
    (setRing sv r).handleHealth = (true, sv.node_id) := by
  refine ⟨rfl, rfl, rfl, rfl, rfl, rfl, rfl, ?_, ?_, ?_, rfl, rfl⟩ <;>
    cases hc : alLookup key sv.local_cache <;>
      simp [CacheServer.handleDelete, CacheServer.delLocal, setRing, hc]

end DCache
